import Mathlib

/-
Verification of the NetToss wireless file transfer server
(android_transfer_gui.py): a shallow embedding of the HTTP handler's
pure logic (multipart ingest, path handling, directory catalog,
archive building, request routing) together with proofs about it.
-/

set_option maxRecDepth 100000

namespace NetToss

/-- Bytes of a request body or file payload, one natural number per byte. -/
abbrev Bytes := List Nat

section Scan

variable {α : Type} [BEq α] [LawfulBEq α]

/-- Index of the first occurrence of pat in b, scanning left to right;
none when pat does not occur (embeds Python bytes.find up to the -1
convention, recovered below in pyFind). -/
def bfind? (pat : List α) : List α → Option Nat
  | [] => if pat.isPrefixOf ([] : List α) then some 0 else none
  | b :: t => if pat.isPrefixOf (b :: t) then some 0 else (bfind? pat t).map (· + 1)

/-- Index of the last occurrence of pat in b (embeds Python bytes.rfind). -/
def brfind? (pat : List α) : List α → Option Nat
  | [] => if pat.isPrefixOf ([] : List α) then some 0 else none
  | b :: t =>
    match brfind? pat t with
    | some j => some (j + 1)
    | none => if pat.isPrefixOf (b :: t) then some 0 else none

/-- Worker for bsplit: scans the list one element at a time; skip counts
separator elements still to be consumed after a match. -/
def bsplitGo (s : α) (ss : List α) : List α → List α → Nat → List (List α)
  | [], acc, _ => [acc.reverse]
  | _ :: t, acc, Nat.succ k => bsplitGo s ss t acc k
  | b :: t, acc, 0 =>
    if (s :: ss).isPrefixOf (b :: t) then acc.reverse :: bsplitGo s ss t [] ss.length
    else bsplitGo s ss t (b :: acc) 0

/-- Split b on every non-overlapping occurrence of sep, leftmost first
(embeds Python bytes.split / str.split with a separator argument). -/
def bsplit (sep b : List α) : List (List α) :=
  match sep with
  | [] => [b]
  | s :: ss => bsplitGo s ss b [] 0

/-- Python sub in b containment test. -/
def bContains (pat b : List α) : Bool := (bfind? pat b).isSome

/-- Python b.find(pat): first index or -1. -/
def pyFind (pat b : List α) : Int :=
  match bfind? pat b with
  | some k => (k : Int)
  | none => -1

/-- Python b.find(pat, start): first index at or after start, or -1. -/
def pyFindFrom (pat b : List α) (start : Nat) : Int :=
  match bfind? pat (b.drop start) with
  | some k => ((k + start : Nat) : Int)
  | none => -1

/-- Python b.rfind(pat): last index or -1. -/
def pyRfind (pat b : List α) : Int :=
  match brfind? pat b with
  | some k => (k : Int)
  | none => -1

/-- Normalize a Python slice endpoint against a sequence length. -/
def pySliceIdx (n : Nat) (i : Int) : Nat :=
  if i < 0 then (i + n).toNat else min i.toNat n

/-- Python slice b i-colon-j with full negative-index and clamping
semantics. -/
def pySlice (b : List α) (i j : Int) : List α :=
  (b.drop (pySliceIdx b.length i)).take (pySliceIdx b.length j - pySliceIdx b.length i)

end Scan

/-- ASCII bytes of a string literal. -/
def strB (s : String) : Bytes := s.data.map Char.toNat

/-! Multipart ingest, embedded from handle_file_upload. -/

def cdTok : Bytes := strB "Content-Disposition"
def fnTok : Bytes := strB "filename="
def fnqTok : Bytes := strB "filename=\""
def quoteB : Bytes := [34]
def crlfB : Bytes := [13, 10]
def crlf2B : Bytes := [13, 10, 13, 10]
def bdParamTok : Bytes := strB "boundary="
def dashdashB : Bytes := [45, 45]

/-- The upload size cap from the source: 500_000_000 bytes. -/
def uploadCap : Nat := 500000000

/-- The recognition test of the upload loop: the raw part must contain
both the Content-Disposition and the filename= byte sequences. -/
def condPart (part : Bytes) : Bool := bContains cdTok part && bContains fnTok part

/-- Filename extraction of the upload loop: the bytes between
filename=quote and the following quote. -/
def partFilename (part : Bytes) : Bytes :=
  let a : Int := pyFind fnqTok part + 10
  let e : Int := pyFindFrom quoteB part a.toNat
  pySlice part a e

/-- Payload extraction of the upload loop: the bytes between the first
blank line and the last CR LF of the part. -/
def partData (part : Bytes) : Bytes :=
  let a : Int := pyFind crlf2B part + 4
  let e : Int := pyRfind crlfB part
  pySlice part a e

/-- os.path.basename on byte strings: everything after the last slash. -/
def basenameB (nm : Bytes) : Bytes :=
  match brfind? [47] nm with
  | some i => nm.drop (i + 1)
  | none => nm

/-- Stored filename: timestamp, underscore, basename of the client name. -/
def storedNameOf (ts part : Bytes) : Bytes := ts ++ [95] ++ basenameB (partFilename part)

/-- The body of the for-part loop: each qualifying part is persisted as
one (stored name, payload) pair, in order. -/
def processParts (ts : Bytes) : List Bytes → List (Bytes × Bytes)
  | [] => []
  | p :: rest =>
    if condPart p then (storedNameOf ts p, partData p) :: processParts ts rest
    else processParts ts rest

/-- Boundary extraction: text after the last boundary= occurrence of the
Content-Type value; the whole value when boundary= is absent. -/
def boundaryOf (ct : Bytes) : Bytes := (bsplit bdParamTok ct).getLastD []

/-- Outcome of one POST /upload request: HTTP status, whether any body
bytes were read from the stream, and the files written in order. -/
structure UploadResult where
  status : Nat
  bodyRead : Bool
  stored : List (Bytes × Bytes)
deriving DecidableEq, Repr

/-- handle_file_upload, embedded: the cap check precedes everything; a
missing Content-Type header raises before the body read (None.split)
and is answered 500 by the except clause; otherwise the body is read,
split on dash-dash-boundary and each qualifying part persisted. -/
def handleFileUpload (contentLength : Nat) (contentType : Option Bytes) (body ts : Bytes) :
    UploadResult :=
  if uploadCap < contentLength then ⟨413, false, []⟩
  else
    match contentType with
    | none => ⟨500, false, []⟩
    | some ct =>
      let boundary := boundaryOf ct
      let parts := bsplit (dashdashB ++ boundary) (body.take contentLength)
      ⟨200, true, processParts ts parts⟩

/-! Filesystem model: a directory tree with listdir order given by the
order of entries. Paths are lists of component names. -/

mutual
inductive FSNode where
  | file (content : Bytes)
  | dir (children : FSEntries)
deriving DecidableEq
inductive FSEntries where
  | nil
  | cons (name : String) (node : FSNode) (rest : FSEntries)
deriving DecidableEq
end

/-- One directory-listing step. -/
def findEntry : FSEntries → String → Option FSNode
  | .nil, _ => none
  | .cons n node rest, s => if n = s then some node else findEntry rest s

/-- Resolve a relative path of plain components against a node. -/
def lookupFS : List String → FSNode → Option FSNode
  | [], n => some n
  | _ :: _, .file _ => none
  | s :: rest, .dir ch =>
    match findEntry ch s with
    | some m => lookupFS rest m
    | none => none

/-- Files of the current directory in listdir order, as os.walk yields
them for the top directory (relative path, content). -/
def walkT : FSEntries → List (List String × Bytes)
  | .nil => []
  | .cons n (.file c) rest => ([n], c) :: walkT rest
  | .cons _ (.dir _) rest => walkT rest

/-- Files of the subdirectories in listdir order, as the remaining
os.walk iterations yield them, paths prefixed by the subdirectory name. -/
def walkS : FSEntries → List (List String × Bytes)
  | .nil => []
  | .cons _ (.file _) rest => walkS rest
  | .cons n (.dir ch) rest =>
    ((walkT ch ++ walkS ch).map (fun pc => (n :: pc.1, pc.2))) ++ walkS rest

/-- All files below a node in os.walk order with paths relative to the
node, matching os.walk with arcname relpath(file, top). -/
def walkFiles : FSNode → List (List String × Bytes)
  | .file _ => []
  | .dir ch => walkT ch ++ walkS ch

/-- get_folder_size, embedded: os.walk over the folder summing the size
of every file found. -/
def getFolderSize (n : FSNode) : Nat := ((walkFiles n).map (fun pc => pc.2.length)).sum

/-- Spec-side recursive size: sum of contained file sizes, computed
structurally over the tree (the Entry invariant of the data model). -/
def entriesSize : FSEntries → Nat
  | .nil => 0
  | .cons _ (.file c) rest => c.length + entriesSize rest
  | .cons _ (.dir ch) rest => entriesSize ch + entriesSize rest

/-- Spec-side subtree file enumeration: child order, each child's files
in place (recursively walk ... preserving the relative subtree
structure). Distinct from walkFiles, which lists top-level files before
any subdirectory content. -/
def filesOfE : FSEntries → List (List String × Bytes)
  | .nil => []
  | .cons n (.file c) rest => ([n], c) :: filesOfE rest
  | .cons n (.dir ch) rest =>
    ((filesOfE ch).map (fun pc => (n :: pc.1, pc.2))) ++ filesOfE rest

/-- pathlib name of a selection item: its last component. -/
def itemBase (item : List String) : String := item.getLastD ""

/-- Zip entries contributed by one item of download_selected: a file is
written at the archive root under its base name, a folder is walked with
every file prefixed by the folder's own name, a missing path is skipped. -/
def selEntries (root : FSNode) (item : List String) : List (List String × Bytes) :=
  match lookupFS item root with
  | none => []
  | some (.file c) => [([itemBase item], c)]
  | some (.dir ch) =>
    (walkT ch ++ walkS ch).map (fun pc => (itemBase item :: pc.1, pc.2))

/-- download_selected, embedded: the zip entries written for an ordered
selection set, in request order. -/
def downloadSelected (root : FSNode) : List (List String) → List (List String × Bytes)
  | [] => []
  | it :: rest => selEntries root it ++ downloadSelected root rest

/-- Result of a folder or file download request. -/
inductive FolderZip where
  | ok (entries : List (List String × Bytes))
  | err (status : Nat)
deriving DecidableEq, Repr

/-- download_folder, embedded: 404 unless the path is an existing
directory, else the os.walk zip with arcname relpath(file, folder) -
no folder-name prefix. -/
def downloadFolder (root : FSNode) (p : List String) : FolderZip :=
  match lookupFS p root with
  | some (.dir ch) => .ok (walkT ch ++ walkS ch)
  | _ => .err 404

/-! Directory catalog, embedded from list_files_json, and the path
sanitization it performs. Untrusted path strings are handled as
character lists. -/

/-- Python lstrip with a slash argument: drop every leading slash. -/
def stripLeadSlash (s : List Char) : List Char := s.dropWhile (fun c => c = '/')

/-- Python replace of dot-dot by the empty string: leftmost
non-overlapping removal. -/
def replaceDotDot : List Char → List Char
  | '.' :: '.' :: rest => replaceDotDot rest
  | c :: rest => c :: replaceDotDot rest
  | [] => []

/-- The sanitizer of list_files_json: applied only to a non-empty path
parameter. -/
def sanitizeSubpath (s : List Char) : List Char :=
  if s = [] then s else replaceDotDot (stripLeadSlash s)

/-- Split a character path on slashes into components, dropping empty
components as filesystem resolution does. -/
def segsOf (s : List Char) : List String :=
  ((bsplit ['/'] s).filter (fun seg => seg ≠ [])).map (fun seg => String.mk seg)

/-- Resolution of the catalog's target directory inside the modeled
root: an absolute (slash-leading) sanitized path leaves the modeled
tree and resolves to nothing here; otherwise the components are looked
up and only a directory counts. -/
def resolveDir (rootCh : FSEntries) (sub : List Char) : Option FSEntries :=
  if sub.head? = some '/' then none
  else
    match lookupFS (segsOf sub) (.dir rootCh) with
    | some (.dir ch) => some ch
    | _ => none

/-- One JSON item of the listing. -/
structure FItem where
  name : String
  rpath : List Char
  size : Nat
  ftype : String
deriving DecidableEq, Repr

/-- Relative path reported for a child: join(subpath, name) when a
subpath is set, else the bare name. -/
def joinRel (sub : List Char) (n : String) : List Char :=
  if sub = [] then n.data else sub ++ '/' :: n.data

/-- The listdir loop of list_files_json: files with their byte size,
folders with their recursive walk size. -/
def itemsOf (sub : List Char) : FSEntries → List FItem
  | .nil => []
  | .cons n (.file c) rest =>
    ⟨n, joinRel sub n, c.length, "file"⟩ :: itemsOf sub rest
  | .cons n (.dir ch) rest =>
    ⟨n, joinRel sub n, getFolderSize (.dir ch), "folder"⟩ :: itemsOf sub rest

/-- Spec-side listing: identical shape but folder sizes given by the
structural recursive sum of the data model. -/
def itemsSpec (sub : List Char) : FSEntries → List FItem
  | .nil => []
  | .cons n (.file c) rest =>
    ⟨n, joinRel sub n, c.length, "file"⟩ :: itemsSpec sub rest
  | .cons n (.dir ch) rest =>
    ⟨n, joinRel sub n, entriesSize ch, "folder"⟩ :: itemsSpec sub rest

/-- Response of GET /api/files. -/
structure ListResp where
  status : Nat
  currentPath : List Char
  items : List FItem
deriving DecidableEq, Repr

/-- list_files_json, embedded: sanitize the path parameter, fall back to
the root silently when the target is missing or not a directory, list
the children. -/
def listFilesJson (rootCh : FSEntries) (rawSub : List Char) : ListResp :=
  match resolveDir rootCh (sanitizeSubpath rawSub) with
  | some ch => ⟨200, sanitizeSubpath rawSub, itemsOf (sanitizeSubpath rawSub) ch⟩
  | none => ⟨200, [], itemsOf [] rootCh⟩

/-! Path resolution as performed by the download endpoints, and a
lexical normalization used to judge whether the resulting filesystem
path stays below the configured root. -/

/-- The configured download root. -/
def downloadDirC : List Char := "downloads".data

/-- os.path.join and pathlib slash for two components: an absolute
second argument discards the first. -/
def osJoin (a b : List Char) : List Char :=
  if b.head? = some '/' then b else if a = [] then b else a ++ '/' :: b

/-- Split a path string on slashes, keeping components as given. -/
def splitSlash (s : List Char) : List String :=
  (bsplit ['/'] s).map (fun seg => String.mk seg)

/-- Lexical normalization worker: empty and dot components vanish,
dot-dot pops the previous real component, escapes above the start are
kept for relative paths and vanish at the root of absolute ones. -/
def normAcc (isAbs : Bool) : List String → List String → List String
  | acc, [] => acc.reverse
  | acc, s :: rest =>
    if s = "" ∨ s = "." then normAcc isAbs acc rest
    else if s = ".." then
      match acc with
      | [] => normAcc isAbs (if isAbs then [] else [".."]) rest
      | a :: tl => if a = ".." then normAcc isAbs (".." :: a :: tl) rest else normAcc isAbs tl rest
    else normAcc isAbs (s :: acc) rest

/-- Lexical normalization of a path string: absoluteness flag and the
normalized components, as the operating system resolves the path in the
absence of symlinks. -/
def normalizePath (p : List Char) : Bool × List String :=
  (p.head? = some '/', normAcc (p.head? = some '/') [] (splitSlash p))

/-- Containment: target lies at or below root, compared on normalized
paths. -/
def isDescendant (root target : Bool × List String) : Bool :=
  root.1 = target.1 && root.2.isPrefixOf target.2

/-- The filesystem path download_file operates on for an untrusted path
parameter p: pathlib join of the download root and p, with no
sanitization or containment check in between. -/
def downloadFileTarget (p : List Char) : List Char := osJoin downloadDirC p

/-- Result of a single-file download. -/
inductive DlResult where
  | ok (content : Bytes)
  | err (status : Nat)
deriving DecidableEq, Repr

/-- download_file, embedded over an abstract filesystem mapping
normalized paths to file contents: whatever path the join produces is
served if a file exists there, 404 otherwise. -/
def downloadFile (fs : Bool × List String → Option Bytes) (p : List Char) : DlResult :=
  match fs (normalizePath (downloadFileTarget p)) with
  | some c => .ok c
  | none => .err 404

/-! Transfer router, embedded from do_GET and do_POST. -/

/-- Python str.startswith. -/
def startsWithC (pre s : List Char) : Bool := pre.isPrefixOf s

/-- The path suffix do_GET hands to download_file: text after the last
/download/ occurrence of the request path. -/
def dlSuffix (p : List Char) : List Char := (bsplit ("/download/".data) p).getLastD []

/-- Dispatch outcome of a GET request. -/
inductive GetResp where
  | page
  | uploadPage
  | apiFiles
  | dlSelected
  | dlFolder
  | ok200
  | errorResp (status : Nat)
  | fallback
deriving DecidableEq, Repr

/-- do_GET, embedded: the connection counter is incremented first, then
the path is matched against the dispatch table in source order. -/
def doGET (fs : Bool × List String → Option Bytes) (count : Nat) (p : List Char) :
    Nat × GetResp :=
  (count + 1,
    if p = "/".data ∨ p = "/index.html".data then .page
    else if startsWithC "/upload".data p then .uploadPage
    else if startsWithC "/api/files".data p then .apiFiles
    else if startsWithC "/download-selected".data p then .dlSelected
    else if startsWithC "/download-folder/".data p then .dlFolder
    else if startsWithC "/download/".data p then
      match downloadFile fs (dlSuffix p) with
      | .ok _ => .ok200
      | .err s => .errorResp s
    else .fallback)

/-- Dispatch outcome of a POST request. -/
inductive PostResp where
  | upload
  | notFound404
deriving DecidableEq, Repr

/-- do_POST, embedded: counter first, then /upload or 404. -/
def doPOST (count : Nat) (p : List Char) : Nat × PostResp :=
  (count + 1, if startsWithC "/upload".data p then .upload else .notFound404)

/-- Spec-side contribution of one selection item to the archive, in the
words of the Archive Builder contract: an existing file appears at the
archive root under its base name; every file of an existing folder
appears under the folder's base name with its subtree path preserved;
a missing item contributes nothing. -/
def itemContrib (root : FSNode) (item nm : List String) (c : Bytes) : Prop :=
  (lookupFS item root = some (.file c) ∧ nm = [itemBase item]) ∨
  (∃ ch rel, lookupFS item root = some (.dir ch) ∧ (rel, c) ∈ filesOfE ch ∧
    nm = itemBase item :: rel)

/-! Multipart framing builders and concrete fixtures used by the
theorems below. -/

/-- Head of a well-formed part as split off the body: the CR LF that
followed the boundary, the part headers, the blank line. -/
def preOf (hdr : Bytes) : Bytes := crlfB ++ hdr ++ crlf2B

/-- A well-formed part as split off the body: headers, blank line,
payload, trailing CR LF that preceded the next boundary. -/
def partOf (hdr P : Bytes) : Bytes := preOf hdr ++ (P ++ crlfB)

/-- What follows the final boundary: the two closing dashes and CR LF. -/
def endB : Bytes := [45, 45, 13, 10]

/-- A complete single-part multipart body for a given dash-dash-boundary
token sep. -/
def bodyOf (sep hdr P : Bytes) : Bytes := sep ++ (partOf hdr P ++ (sep ++ endB))

/-- Spec-side header section of a part: the bytes before the first blank
line. -/
def headerSection (part : Bytes) : Bytes :=
  match bfind? crlf2B part with
  | some k => part.take k
  | none => part

/-- Spec-side test: the part's header section names a filename
attribute, as opposed to the substring appearing anywhere in the part. -/
def hasFilenameAttr (part : Bytes) : Bool := bContains fnTok (headerSection part)

def ts0 : Bytes := strB "20250101_000000"
def bnd5 : Bytes := strB "XyZBnd"
def sep5 : Bytes := dashdashB ++ bnd5
def s5tail : Bytes := strB "-XyZBnd"
def ct5 : Bytes := strB "multipart/form-data; boundary=XyZBnd"
def hdr5 : Bytes :=
  strB "Content-Disposition: form-data; name=\"file\"; filename=\"report.pdf\"\r\nContent-Type: application/pdf"
def hdr5b : Bytes :=
  strB "Content-Disposition: form-data; name=\"file\"; filename=\"docs/inner/report.pdf\"\r\nContent-Type: application/pdf"
def ct3 : Bytes := strB "multipart/form-data"
def hdr3 : Bytes := strB "Content-Disposition: form-data; name=\"file\"; filename=\"x.txt\""
def body3 : Bytes := bodyOf (dashdashB ++ strB "AB") hdr3 (strB "hi")
def hdr7 : Bytes := strB "Content-Disposition: form-data; name=\"x\""
def pay7 : Bytes := strB "see filename= here"
def body7 : Bytes := bodyOf sep5 hdr7 pay7
def hdrField : Bytes := strB "Content-Disposition: form-data; name=\"field\""
def body10 : Bytes := bodyOf sep5 hdrField (strB "value")
def bbB : Bytes := [104, 101, 108, 108, 111]
def aaB : Bytes := [97, 98, 99]
def rootAE : FSEntries :=
  .cons "a.txt" (.file aaB) (.cons "docs" (.dir (.cons "b.txt" (.file bbB) .nil)) .nil)
def rootA : FSNode := .dir rootAE
def secretB : Bytes := strB "root:x:0:0"

/-- A filesystem holding a file at the out-of-root location the
traversal input resolves to. -/
def fsOutside : Bool × List String → Option Bytes :=
  fun np => if np = (false, ["..", "etc", "passwd"]) then some secretB else none

/-! Lemmas about the scanning primitives. -/

section ScanLemmas

set_option linter.unusedSectionVars false

variable {α : Type} [BEq α] [LawfulBEq α]

theorem bool_ne_true {b : Bool} (h : b = false) : ¬(b = true) := by
  rw [h]; exact Bool.false_ne_true

theorem bool_eq_false {b : Bool} (h : ¬(b = true)) : b = false := by
  cases b with
  | false => rfl
  | true => exact absurd rfl h

theorem ipo_nil (b : List α) : ([] : List α).isPrefixOf b = true := by
  cases b <;> rfl

theorem ipo_cons_nil (a : α) (tl : List α) :
    (a :: tl).isPrefixOf ([] : List α) = false := rfl

theorem ipo_cons_cons (a : α) (tl : List α) (x : α) (xs : List α) :
    (a :: tl).isPrefixOf (x :: xs) = (a == x && tl.isPrefixOf xs) := rfl

theorem ipo_length {l b : List α} (h : l.isPrefixOf b = true) : l.length ≤ b.length := by
  induction l generalizing b with
  | nil => exact Nat.zero_le _
  | cons a tl ih =>
    cases b with
    | nil => exact absurd h (bool_ne_true (ipo_cons_nil a tl))
    | cons x xs =>
      rw [ipo_cons_cons, Bool.and_eq_true] at h
      have := ih h.2
      simp only [List.length_cons]
      omega

theorem ipo_append {l A : List α} (C : List α) (h : l.isPrefixOf A = true) :
    l.isPrefixOf (A ++ C) = true := by
  induction l generalizing A with
  | nil => exact ipo_nil _
  | cons a tl ih =>
    cases A with
    | nil => exact absurd h (bool_ne_true (ipo_cons_nil a tl))
    | cons x xs =>
      rw [ipo_cons_cons, Bool.and_eq_true] at h
      show (a :: tl).isPrefixOf (x :: (xs ++ C)) = true
      rw [ipo_cons_cons, Bool.and_eq_true]
      exact ⟨h.1, ih h.2⟩

theorem ipo_append_iff {l A : List α} (C : List α) (hl : l.length ≤ A.length) :
    l.isPrefixOf (A ++ C) = l.isPrefixOf A := by
  induction l generalizing A with
  | nil => rw [ipo_nil, ipo_nil]
  | cons a tl ih =>
    cases A with
    | nil => simp at hl
    | cons x xs =>
      show (a :: tl).isPrefixOf (x :: (xs ++ C)) = _
      rw [ipo_cons_cons, ipo_cons_cons,
        ih (by simp only [List.length_cons] at hl; omega)]

theorem ipo_self_append (l C : List α) : l.isPrefixOf (l ++ C) = true := by
  induction l with
  | nil => exact ipo_nil _
  | cons a tl ih =>
    show (a :: tl).isPrefixOf (a :: (tl ++ C)) = true
    rw [ipo_cons_cons, Bool.and_eq_true]
    exact ⟨beq_self_eq_true a, ih⟩

theorem bfind_nil (pat : List α) :
    bfind? pat ([] : List α) = if pat.isPrefixOf [] then some 0 else none := rfl

theorem bfind_cons (pat : List α) (b : α) (t : List α) :
    bfind? pat (b :: t) =
      if pat.isPrefixOf (b :: t) then some 0 else (bfind? pat t).map (· + 1) := rfl

theorem brfind_nil (pat : List α) :
    brfind? pat ([] : List α) = if pat.isPrefixOf [] then some 0 else none := rfl

theorem brfind_cons (pat : List α) (b : α) (t : List α) :
    brfind? pat (b :: t) =
      match brfind? pat t with
      | some j => some (j + 1)
      | none => if pat.isPrefixOf (b :: t) then some 0 else none := rfl

theorem bfind_some_le {pat b : List α} {k : Nat} (h : bfind? pat b = some k) :
    k + pat.length ≤ b.length ∧ pat.isPrefixOf (b.drop k) = true := by
  induction b generalizing k with
  | nil =>
    rw [bfind_nil] at h
    by_cases hp : pat.isPrefixOf ([] : List α) = true
    · rw [if_pos hp] at h
      obtain rfl : 0 = k := by injection h
      exact ⟨by have := ipo_length hp; simpa using this, by simpa using hp⟩
    · rw [if_neg hp] at h
      exact absurd h (Option.noConfusion)
  | cons x t ih =>
    rw [bfind_cons] at h
    by_cases hp : pat.isPrefixOf (x :: t) = true
    · rw [if_pos hp] at h
      obtain rfl : 0 = k := by injection h
      exact ⟨by have := ipo_length hp; simpa using this, by simpa using hp⟩
    · rw [if_neg hp] at h
      rw [Option.map_eq_some'] at h
      obtain ⟨k', hk', rfl⟩ := h
      obtain ⟨h1, h2⟩ := ih hk'
      constructor
      · simp only [List.length_cons]; omega
      · simpa using h2

theorem bfind_nil_pat (b : List α) : bfind? ([] : List α) b = some 0 := by
  cases b with
  | nil => rw [bfind_nil, if_pos (ipo_nil _)]
  | cons x t => rw [bfind_cons, if_pos (ipo_nil _)]

theorem bfind_append {pat A : List α} (C : List α) {k : Nat} (h : bfind? pat A = some k) :
    bfind? pat (A ++ C) = some k := by
  induction A generalizing k with
  | nil =>
    rw [bfind_nil] at h
    by_cases hp : pat.isPrefixOf ([] : List α) = true
    · have hpe : pat = [] := by
        cases pat with
        | nil => rfl
        | cons a tl => exact absurd hp (bool_ne_true (ipo_cons_nil a tl))
      subst hpe
      rw [if_pos hp] at h
      obtain rfl : 0 = k := by injection h
      simpa using bfind_nil_pat C
    · rw [if_neg hp] at h
      exact absurd h (Option.noConfusion)
  | cons a A' ih =>
    rw [bfind_cons] at h
    by_cases hp : pat.isPrefixOf (a :: A') = true
    · rw [if_pos hp] at h
      obtain rfl : 0 = k := by injection h
      have hpc : pat.isPrefixOf ((a :: A') ++ C) = true := ipo_append C hp
      show bfind? pat (a :: (A' ++ C)) = some 0
      rw [bfind_cons]
      rw [show (a :: (A' ++ C) : List α) = (a :: A') ++ C from rfl, if_pos hpc]
    · rw [if_neg hp] at h
      rw [Option.map_eq_some'] at h
      obtain ⟨k', hk', rfl⟩ := h
      have hlen : pat.length ≤ (a :: A').length := by
        have := (bfind_some_le hk').1
        simp only [List.length_cons]
        omega
      have hp2 : ¬(pat.isPrefixOf ((a :: A') ++ C) = true) := by
        rw [ipo_append_iff C hlen]
        exact hp
      show bfind? pat (a :: (A' ++ C)) = some (k' + 1)
      rw [bfind_cons,
        show (a :: (A' ++ C) : List α) = (a :: A') ++ C from rfl, if_neg hp2,
        ih hk']
      rfl

theorem bContains_append {pat A : List α} (C : List α) (h : bContains pat A = true) :
    bContains pat (A ++ C) = true := by
  unfold bContains at h ⊢
  obtain ⟨k, hk⟩ := Option.isSome_iff_exists.mp h
  rw [bfind_append C hk]
  rfl

theorem brfind_none_short {pat b : List α} (hp : pat ≠ []) (h : b.length < pat.length) :
    brfind? pat b = none := by
  induction b with
  | nil =>
    have hno : pat.isPrefixOf ([] : List α) = false := by
      cases pat with
      | nil => exact absurd rfl hp
      | cons a tl => exact ipo_cons_nil a tl
    rw [brfind_nil, if_neg (bool_ne_true hno)]
  | cons x t ih =>
    have ht : brfind? pat t = none := ih (by simp only [List.length_cons] at h; omega)
    have hno : ¬(pat.isPrefixOf (x :: t) = true) := by
      intro hc
      have := ipo_length hc
      omega
    rw [brfind_cons, ht, if_neg hno]

theorem brfind_concat {pat : List α} (A : List α) (hp : pat ≠ []) :
    brfind? pat (A ++ pat) = some A.length := by
  induction A with
  | nil =>
    cases pat with
    | nil => exact absurd rfl hp
    | cons p ps =>
      have htail : brfind? (p :: ps) ps = none :=
        brfind_none_short hp (by simp)
      have hself : (p :: ps).isPrefixOf (p :: ps) = true := by
        have := ipo_self_append (p :: ps) ([] : List α)
        rwa [List.append_nil] at this
      show brfind? (p :: ps) (p :: ps) = some 0
      rw [brfind_cons, htail, if_pos hself]
  | cons a A' ih =>
    show brfind? pat (a :: (A' ++ pat)) = some (A'.length + 1)
    rw [brfind_cons, ih]

theorem bsplitGo_nil (s : α) (ss acc : List α) (k : Nat) :
    bsplitGo s ss [] acc k = [acc.reverse] := rfl

theorem bsplitGo_cons_succ (s : α) (ss : List α) (b : α) (t acc : List α) (k : Nat) :
    bsplitGo s ss (b :: t) acc (k + 1) = bsplitGo s ss t acc k := rfl

theorem bsplitGo_cons_zero (s : α) (ss : List α) (b : α) (t acc : List α) :
    bsplitGo s ss (b :: t) acc 0 =
      if (s :: ss).isPrefixOf (b :: t) then acc.reverse :: bsplitGo s ss t [] ss.length
      else bsplitGo s ss t (b :: acc) 0 := rfl

theorem bsplitGo_skip (s : α) (ss : List α) (D B acc : List α) :
    bsplitGo s ss (D ++ B) acc D.length = bsplitGo s ss B acc 0 := by
  induction D with
  | nil => rfl
  | cons d D' ih =>
    show bsplitGo s ss (d :: (D' ++ B)) acc (D'.length + 1) = _
    rw [bsplitGo_cons_succ, ih]

theorem bsplitGo_append (s : α) (ss : List α) (A B acc : List α)
    (h : ∀ i < A.length, (s :: ss).isPrefixOf ((A ++ ((s :: ss) ++ B)).drop i) = false) :
    bsplitGo s ss (A ++ ((s :: ss) ++ B)) acc 0 =
      (acc.reverse ++ A) :: bsplitGo s ss B [] 0 := by
  induction A generalizing acc with
  | nil =>
    have hmatch : (s :: ss).isPrefixOf ((s :: ss) ++ B) = true := ipo_self_append _ _
    show bsplitGo s ss (s :: (ss ++ B)) acc 0 = (acc.reverse ++ []) :: _
    rw [bsplitGo_cons_zero,
      if_pos (show (s :: ss).isPrefixOf (s :: (ss ++ B)) = true from hmatch),
      bsplitGo_skip s ss ss B, List.append_nil]
  | cons a A' ih =>
    have h0 : ¬((s :: ss).isPrefixOf (a :: (A' ++ ((s :: ss) ++ B))) = true) := by
      have h0f := h 0 (by simp)
      rw [List.drop_zero] at h0f
      exact bool_ne_true h0f
    show bsplitGo s ss (a :: (A' ++ ((s :: ss) ++ B))) acc 0 = _
    rw [bsplitGo_cons_zero, if_neg h0]
    have ih' := ih (a :: acc) (fun i hi => by
      have := h (i + 1) (by simp only [List.length_cons]; omega)
      exact this)
    rw [ih', List.reverse_cons, List.append_assoc]
    rfl

theorem pySlice_nn (b : List α) (i j : Nat) (hi : i ≤ b.length) (hj : j ≤ b.length) :
    pySlice b (i : Int) (j : Int) = (b.drop i).take (j - i) := by
  unfold pySlice pySliceIdx
  have h1 : ¬((i : Int) < 0) := by omega
  have h2 : ¬((j : Int) < 0) := by omega
  rw [if_neg h1, if_neg h2, Int.toNat_natCast, Int.toNat_natCast,
    min_eq_left hi, min_eq_left hj]

theorem bsplitGo_head (s : α) (ss B acc : List α) :
    bsplitGo s ss ((s :: ss) ++ B) acc 0 = acc.reverse :: bsplitGo s ss B [] 0 := by
  have hmatch : (s :: ss).isPrefixOf ((s :: ss) ++ B) = true := ipo_self_append _ _
  show bsplitGo s ss (s :: (ss ++ B)) acc 0 = _
  rw [bsplitGo_cons_zero,
    if_pos (show (s :: ss).isPrefixOf (s :: (ss ++ B)) = true from hmatch),
    bsplitGo_skip s ss ss B]

end ScanLemmas

/-! Lemmas about the multipart ingest. -/

theorem processParts_cons (ts p : Bytes) (rest : List Bytes) :
    processParts ts (p :: rest) =
      if condPart p then (storedNameOf ts p, partData p) :: processParts ts rest
      else processParts ts rest := rfl

theorem processParts_mem (ts : Bytes) (parts : List Bytes) (nm c : Bytes) :
    (nm, c) ∈ processParts ts parts ↔
      ∃ p, p ∈ parts ∧ condPart p = true ∧ nm = storedNameOf ts p ∧ c = partData p := by
  induction parts with
  | nil => simp [processParts]
  | cons p rest ih =>
    rw [processParts_cons]
    by_cases hc : condPart p = true
    · rw [if_pos hc]
      simp only [List.mem_cons, ih, Prod.mk.injEq]
      constructor
      · rintro (⟨h1, h2⟩ | ⟨q, hq, hcq, h1, h2⟩)
        exacts [⟨p, Or.inl rfl, hc, h1, h2⟩, ⟨q, Or.inr hq, hcq, h1, h2⟩]
      · rintro ⟨q, hq | hq, hcq, h1, h2⟩
        · subst hq
          exact Or.inl ⟨h1, h2⟩
        · exact Or.inr ⟨q, hq, hcq, h1, h2⟩
    · rw [if_neg hc, ih]
      constructor
      · rintro ⟨q, hq, hcq, h1, h2⟩
        exact ⟨q, List.mem_cons_of_mem p hq, hcq, h1, h2⟩
      · rintro ⟨q, hq, hcq, h1, h2⟩
        rcases List.mem_cons.mp hq with rfl | hq'
        · exact absurd hcq hc
        · exact ⟨q, hq', hcq, h1, h2⟩

theorem processParts_skip (ts : Bytes) (pre post : List Bytes) (bad : Bytes)
    (h : condPart bad = false) :
    processParts ts (pre ++ bad :: post) = processParts ts (pre ++ post) := by
  induction pre with
  | nil =>
    show processParts ts (bad :: post) = _
    rw [processParts_cons, if_neg (bool_ne_true h)]
    rfl
  | cons p pre' ih =>
    show processParts ts (p :: (pre' ++ bad :: post)) = processParts ts (p :: (pre' ++ post))
    rw [processParts_cons, processParts_cons, ih]

theorem processParts_nil_of (ts : Bytes) (parts : List Bytes)
    (h : ∀ p ∈ parts, condPart p = false) : processParts ts parts = [] := by
  induction parts with
  | nil => rfl
  | cons p rest ih =>
    rw [processParts_cons, if_neg (bool_ne_true (h p (List.mem_cons_self p rest)))]
    exact ih (fun q hq => h q (List.mem_cons_of_mem p hq))

theorem handleFileUpload_some (cl : Nat) (ct body ts : Bytes) (h : ¬(uploadCap < cl)) :
    handleFileUpload cl (some ct) body ts =
      ⟨200, true, processParts ts (bsplit (dashdashB ++ boundaryOf ct) (body.take cl))⟩ := by
  unfold handleFileUpload
  rw [if_neg h]

/-- Evaluation of the upload loop on one well-formed part: the headers
are fixed by hdr, the payload P is arbitrary; the hypotheses locate the
tokens inside the header section and are discharged by computation for a
concrete hdr. -/
theorem filePart_eval (hdr P : Bytes) (kcd kfn kf j : Nat)
    (hcd : bfind? cdTok (preOf hdr) = some kcd)
    (hfn : bfind? fnTok (preOf hdr) = some kfn)
    (hfq : bfind? fnqTok (preOf hdr) = some kf)
    (hq : bfind? quoteB ((preOf hdr).drop (kf + 10)) = some j)
    (hs : bfind? crlf2B (preOf hdr) = some ((preOf hdr).length - 4)) :
    condPart (partOf hdr P) = true ∧
    partFilename (partOf hdr P) = ((preOf hdr).drop (kf + 10)).take j ∧
    partData (partOf hdr P) = P := by
  have hcrlf2len : crlf2B.length = 4 := rfl
  have hcrlflen : crlfB.length = 2 := rfl
  have hlen4 : 4 ≤ (preOf hdr).length := by
    have := (bfind_some_le hs).1
    rw [hcrlf2len] at this
    omega
  have hpartlen : (partOf hdr P).length = (preOf hdr).length + (P.length + 2) := by
    unfold partOf
    rw [List.length_append, List.length_append, hcrlflen]
  have hqb : j + 1 ≤ (preOf hdr).length - (kf + 10) := by
    have := (bfind_some_le hq).1
    rw [List.length_drop] at this
    have hq1 : quoteB.length = 1 := rfl
    omega
  have hk10 : kf + 10 + (j + 1) ≤ (preOf hdr).length := by omega
  have hdropsplit : (partOf hdr P).drop (kf + 10) =
      (preOf hdr).drop (kf + 10) ++ (P ++ crlfB) := by
    unfold partOf
    rw [List.drop_append_eq_append_drop,
      show kf + 10 - (preOf hdr).length = 0 by omega, List.drop_zero]
  refine ⟨?_, ?_, ?_⟩
  · unfold condPart
    have c1 : bContains cdTok (partOf hdr P) = true := by
      unfold partOf
      exact bContains_append _ (by unfold bContains; rw [hcd]; rfl)
    have c2 : bContains fnTok (partOf hdr P) = true := by
      unfold partOf
      exact bContains_append _ (by unfold bContains; rw [hfn]; rfl)
    rw [c1, c2]
    rfl
  · have hfq2 : bfind? fnqTok (partOf hdr P) = some kf := by
      unfold partOf
      exact bfind_append _ hfq
    have hq2 : bfind? quoteB ((partOf hdr P).drop (kf + 10)) = some j := by
      rw [hdropsplit]
      exact bfind_append _ hq
    show pySlice (partOf hdr P) (pyFind fnqTok (partOf hdr P) + 10)
      (pyFindFrom quoteB (partOf hdr P) (pyFind fnqTok (partOf hdr P) + 10).toNat) = _
    rw [show pyFind fnqTok (partOf hdr P) = (kf : Int) from by unfold pyFind; rw [hfq2]]
    rw [show ((kf : Int) + 10) = ((kf + 10 : Nat) : Int) from by push_cast; ring,
      Int.toNat_natCast]
    rw [show pyFindFrom quoteB (partOf hdr P) (kf + 10) = ((j + (kf + 10) : Nat) : Int) from by
      unfold pyFindFrom; rw [hq2]]
    rw [pySlice_nn (partOf hdr P) (kf + 10) (j + (kf + 10)) (by omega) (by omega)]
    rw [show j + (kf + 10) - (kf + 10) = j from by omega]
    rw [hdropsplit, List.take_append_eq_append_take,
      show j - ((preOf hdr).drop (kf + 10)).length = 0 from by
        rw [List.length_drop]; omega,
      List.take_zero, List.append_nil]
  · have hfind2 : bfind? crlf2B (partOf hdr P) = some ((preOf hdr).length - 4) := by
      unfold partOf
      exact bfind_append _ hs
    have hrf : brfind? crlfB (partOf hdr P) = some ((preOf hdr).length + P.length) := by
      have hshape : partOf hdr P = (preOf hdr ++ P) ++ crlfB := by
        unfold partOf
        rw [List.append_assoc]
      rw [hshape, brfind_concat (preOf hdr ++ P) (by decide), List.length_append]
    show pySlice (partOf hdr P) (pyFind crlf2B (partOf hdr P) + 4)
      (pyRfind crlfB (partOf hdr P)) = P
    rw [show pyFind crlf2B (partOf hdr P) = (((preOf hdr).length - 4 : Nat) : Int) from by
      unfold pyFind; rw [hfind2]]
    rw [show pyRfind crlfB (partOf hdr P) = (((preOf hdr).length + P.length : Nat) : Int) from by
      unfold pyRfind; rw [hrf]]
    rw [show (((preOf hdr).length - 4 : Nat) : Int) + 4 = (((preOf hdr).length : Nat) : Int) from by
      omega]
    rw [pySlice_nn (partOf hdr P) (preOf hdr).length ((preOf hdr).length + P.length)
      (by omega) (by omega)]
    rw [show (preOf hdr).length + P.length - (preOf hdr).length = P.length from by omega]
    unfold partOf
    rw [List.drop_left, List.take_left]

/-- Full handler run on a well-formed single-part body framed with the
ct5 boundary: exactly one file is stored, named from the timestamp and
the basename of the client filename, holding exactly the payload. -/
theorem upload_single_part (hdr P ts : Bytes) (kcd kfn kf j : Nat)
    (hcd : bfind? cdTok (preOf hdr) = some kcd)
    (hfn : bfind? fnTok (preOf hdr) = some kfn)
    (hfq : bfind? fnqTok (preOf hdr) = some kf)
    (hq : bfind? quoteB ((preOf hdr).drop (kf + 10)) = some j)
    (hs : bfind? crlf2B (preOf hdr) = some ((preOf hdr).length - 4))
    (hcap : (bodyOf sep5 hdr P).length ≤ uploadCap)
    (h2 : ∀ i < (partOf hdr P).length,
      sep5.isPrefixOf ((partOf hdr P ++ (sep5 ++ endB)).drop i) = false) :
    handleFileUpload (bodyOf sep5 hdr P).length (some ct5) (bodyOf sep5 hdr P) ts =
      ⟨200, true, [(ts ++ [95] ++ basenameB (((preOf hdr).drop (kf + 10)).take j), P)]⟩ := by
  obtain ⟨hcnd, hfn2, hdata⟩ := filePart_eval hdr P kcd kfn kf j hcd hfn hfq hq hs
  rw [handleFileUpload_some _ _ _ _ (by omega)]
  have hb : dashdashB ++ boundaryOf ct5 = sep5 := by decide
  rw [hb, List.take_length]
  have hsep : sep5 = 45 :: s5tail := by decide
  rw [hsep] at h2
  have hsplit : bsplit sep5 (bodyOf sep5 hdr P) = [[], partOf hdr P, endB] := by
    have htail : bsplitGo 45 s5tail endB ([] : Bytes) 0 = [endB] := by decide
    rw [show bodyOf sep5 hdr P = sep5 ++ (partOf hdr P ++ (sep5 ++ endB)) from rfl, hsep]
    rw [show bsplit (45 :: s5tail)
        ((45 :: s5tail) ++ (partOf hdr P ++ ((45 :: s5tail) ++ endB))) =
        bsplitGo 45 s5tail
        ((45 :: s5tail) ++ (partOf hdr P ++ ((45 :: s5tail) ++ endB))) [] 0 from rfl]
    rw [bsplitGo_head, bsplitGo_append 45 s5tail (partOf hdr P) endB [] h2, htail]
    rfl
  rw [hsplit, processParts_cons, if_neg (bool_ne_true (by decide : condPart [] = false)),
    processParts_cons, if_pos hcnd,
    processParts_cons, if_neg (bool_ne_true (by decide : condPart endB = false))]
  rw [show processParts ts [] = [] from rfl]
  unfold storedNameOf
  rw [hfn2, hdata]

/-- C5: round-trip of a well-formed upload of a part whose filename
attribute is report.pdf (and of a variant carrying a directory
component, which basename strips): exactly one file is stored, named
timestamp underscore report.pdf, with content equal to the payload. The
hypotheses are the well-formedness conditions: the body fits the cap and
the boundary token does not occur inside the part. -/
theorem c5_upload_roundtrip (P ts : Bytes)
    (hcap : (bodyOf sep5 hdr5 P).length ≤ uploadCap)
    (hcapb : (bodyOf sep5 hdr5b P).length ≤ uploadCap)
    (h2 : ∀ i < (partOf hdr5 P).length,
      sep5.isPrefixOf ((partOf hdr5 P ++ (sep5 ++ endB)).drop i) = false)
    (h2b : ∀ i < (partOf hdr5b P).length,
      sep5.isPrefixOf ((partOf hdr5b P ++ (sep5 ++ endB)).drop i) = false) :
    handleFileUpload (bodyOf sep5 hdr5 P).length (some ct5) (bodyOf sep5 hdr5 P) ts =
      ⟨200, true, [(ts ++ [95] ++ strB "report.pdf", P)]⟩ ∧
    handleFileUpload (bodyOf sep5 hdr5b P).length (some ct5) (bodyOf sep5 hdr5b P) ts =
      ⟨200, true, [(ts ++ [95] ++ strB "report.pdf", P)]⟩ := by
  constructor
  · have h := upload_single_part hdr5 P ts 2 47 47 10
      (by decide) (by decide) (by decide) (by decide) (by decide) hcap h2
    rwa [show basenameB (((preOf hdr5).drop (47 + 10)).take 10) = strB "report.pdf" from by
      decide] at h
  · have h := upload_single_part hdr5b P ts 2 47 47 21
      (by decide) (by decide) (by decide) (by decide) (by decide) hcapb h2b
    rwa [show basenameB (((preOf hdr5b).drop (47 + 10)).take 21) = strB "report.pdf" from by
      decide] at h

/-- C5 witness: the round-trip at the concrete payload hello world. -/
theorem c5_upload_roundtrip_witness :
    handleFileUpload (bodyOf sep5 hdr5 (strB "hello world")).length (some ct5)
        (bodyOf sep5 hdr5 (strB "hello world")) ts0 =
      ⟨200, true, [(ts0 ++ [95] ++ strB "report.pdf", strB "hello world")]⟩ ∧
    handleFileUpload (bodyOf sep5 hdr5b (strB "hello world")).length (some ct5)
        (bodyOf sep5 hdr5b (strB "hello world")) ts0 =
      ⟨200, true, [(ts0 ++ [95] ++ strB "report.pdf", strB "hello world")]⟩ :=
  c5_upload_roundtrip (strB "hello world") ts0 (by decide) (by decide) (by decide) (by decide)

/-! Lemmas about the filesystem walk and the catalog. -/

theorem walkSum : ∀ ch : FSEntries,
    ((walkT ch ++ walkS ch).map (fun pc => pc.2.length)).sum = entriesSize ch
  | .nil => by simp [walkT, walkS, entriesSize]
  | .cons n (.file c) rest => by
    have ih := walkSum rest
    simp only [walkT, walkS, entriesSize, List.map_append, List.sum_append,
      List.map_cons, List.sum_cons] at ih ⊢
    omega
  | .cons n (.dir ch) rest => by
    have ih1 := walkSum rest
    have ih2 := walkSum ch
    simp only [walkT, walkS, entriesSize, List.map_append, List.sum_append] at ih1 ih2 ⊢
    rw [show List.map (fun pc => pc.2.length)
        ((walkT ch).map (fun pc : List String × Bytes => (n :: pc.1, pc.2))) =
        List.map (fun pc => pc.2.length) (walkT ch) from by rw [List.map_map]; rfl,
      show List.map (fun pc => pc.2.length)
        ((walkS ch).map (fun pc : List String × Bytes => (n :: pc.1, pc.2))) =
        List.map (fun pc => pc.2.length) (walkS ch) from by rw [List.map_map]; rfl]
    omega

theorem walkMem : ∀ (ch : FSEntries) (x : List String × Bytes),
    (x ∈ walkT ch ++ walkS ch ↔ x ∈ filesOfE ch)
  | .nil, x => by simp [walkT, walkS, filesOfE]
  | .cons n (.file c) rest, x => by
    have ih := walkMem rest x
    simp only [walkT, walkS, filesOfE, List.mem_append, List.cons_append,
      List.mem_cons] at ih ⊢
    tauto
  | .cons n (.dir ch) rest, x => by
    have ih1 := walkMem rest x
    have hmap : (x ∈ ((walkT ch ++ walkS ch).map (fun pc => (n :: pc.1, pc.2)))) ↔
        x ∈ ((filesOfE ch).map (fun pc => (n :: pc.1, pc.2))) := by
      simp only [List.mem_map]
      constructor
      · rintro ⟨y, hy, rfl⟩
        exact ⟨y, (walkMem ch y).mp hy, rfl⟩
      · rintro ⟨y, hy, rfl⟩
        exact ⟨y, (walkMem ch y).mpr hy, rfl⟩
    simp only [walkT, walkS, filesOfE, List.mem_append] at ih1 hmap ⊢
    tauto

theorem getFolderSize_dir (ch : FSEntries) : getFolderSize (.dir ch) = entriesSize ch := by
  unfold getFolderSize walkFiles
  exact walkSum ch

theorem itemsOf_eq_spec (sub : List Char) : ∀ ch : FSEntries, itemsOf sub ch = itemsSpec sub ch
  | .nil => rfl
  | .cons n (.file c) rest => by
    show _ :: itemsOf sub rest = _ :: itemsSpec sub rest
    rw [itemsOf_eq_spec sub rest]
  | .cons n (.dir ch) rest => by
    show FItem.mk n (joinRel sub n) (getFolderSize (.dir ch)) "folder" :: itemsOf sub rest =
      FItem.mk n (joinRel sub n) (entriesSize ch) "folder" :: itemsSpec sub rest
    rw [itemsOf_eq_spec sub rest, getFolderSize_dir]

theorem downloadSelected_cons (root : FSNode) (it : List String) (rest : List (List String)) :
    downloadSelected root (it :: rest) = selEntries root it ++ downloadSelected root rest := rfl

theorem selEntries_mem (root : FSNode) (it nm : List String) (c : Bytes) :
    ((nm, c) ∈ selEntries root it ↔ itemContrib root it nm c) := by
  unfold selEntries itemContrib
  cases hl : lookupFS it root with
  | none => simp
  | some node =>
    cases node with
    | file cnt =>
      simp only [List.mem_singleton, Prod.mk.injEq, Option.some.injEq]
      constructor
      · rintro ⟨rfl, rfl⟩
        exact Or.inl ⟨rfl, rfl⟩
      · rintro (⟨he, rfl⟩ | ⟨ch, rel, he, _, _⟩)
        · obtain rfl : cnt = c := by injection he
          exact ⟨rfl, rfl⟩
        · exact absurd he (by intro hh; cases hh)
    | dir ch =>
      simp only [List.mem_map, Option.some.injEq]
      constructor
      · rintro ⟨⟨rel, cc⟩, hpc, heq⟩
        obtain ⟨rfl, rfl⟩ : itemBase it :: rel = nm ∧ cc = c := by
          constructor <;> injection heq
        exact Or.inr ⟨ch, rel, rfl, (walkMem ch (rel, cc)).mp hpc, rfl⟩
      · rintro (⟨he, _⟩ | ⟨ch', rel, he, hmem, hnm⟩)
        · exact absurd he (by intro hh; cases hh)
        · obtain rfl : ch = ch' := by injection he
          exact ⟨(rel, c), (walkMem ch (rel, c)).mpr hmem, by rw [hnm]⟩

/-- C6: the selection archive contains exactly what the Archive Builder
contract prescribes per item, and a missing item anywhere in the
selection is skipped with the rest unaffected. -/
theorem c6_download_selected_spec (root : FSNode) (pre post : List (List String))
    (q : List String) (hq : lookupFS q root = none) :
    downloadSelected root (pre ++ q :: post) = downloadSelected root (pre ++ post) ∧
    ∀ (items : List (List String)) (nm : List String) (c : Bytes),
      ((nm, c) ∈ downloadSelected root items ↔ ∃ it ∈ items, itemContrib root it nm c) := by
  constructor
  · induction pre with
    | nil =>
      show downloadSelected root (q :: post) = _
      rw [downloadSelected_cons, show selEntries root q = [] from by
        unfold selEntries; rw [hq]]
      rfl
    | cons p pre' ih =>
      show downloadSelected root (p :: (pre' ++ q :: post)) =
        downloadSelected root (p :: (pre' ++ post))
      rw [downloadSelected_cons, downloadSelected_cons, ih]
  · intro items nm c
    induction items with
    | nil => simp [downloadSelected]
    | cons it rest ih =>
      rw [downloadSelected_cons]
      simp only [List.mem_append, List.mem_cons, ih, selEntries_mem]
      constructor
      · rintro (h | ⟨it', hit', hcon⟩)
        · exact ⟨it, Or.inl rfl, h⟩
        · exact ⟨it', Or.inr hit', hcon⟩
      · rintro ⟨it', hit' | hit', hcon⟩
        · subst hit'
          exact Or.inl hcon
        · exact Or.inr ⟨it', hit', hcon⟩

/-- C6 witness: Scenario C on the concrete root, with a vanished item. -/
theorem c6_download_selected_spec_witness :
    downloadSelected rootA ([["a.txt"]] ++ ["ghost"] :: [["docs"]]) =
      downloadSelected rootA ([["a.txt"]] ++ [["docs"]]) ∧
    ((["docs", "b.txt"], bbB) ∈ downloadSelected rootA [["a.txt"], ["docs"]] ↔
      ∃ it ∈ [["a.txt"], ["docs"]], itemContrib rootA it ["docs", "b.txt"] bbB) := by
  have h := c6_download_selected_spec rootA [["a.txt"]] [["docs"]] ["ghost"] (by decide)
  exact ⟨h.1, h.2 [["a.txt"], ["docs"]] ["docs", "b.txt"] bbB⟩

/-- C2 counterexample: on a root holding docs containing b.txt, the
folder download writes the entry at b.txt, not docs/b.txt: it differs
from the one-element selection archive, refuting the claimed equality
and Scenario B's entry name. -/
theorem c2_folder_zip_counterexample :
    downloadFolder rootA ["docs"] = .ok [(["b.txt"], bbB)] ∧
    downloadSelected rootA [["docs"]] = [(["docs", "b.txt"], bbB)] ∧
    FolderZip.ok [(["b.txt"], bbB)] ≠ FolderZip.ok [(["docs", "b.txt"], bbB)] :=
  ⟨by decide, by decide, by decide⟩

/-- C2 amended: the one-element selection archive equals the folder
archive with the folder's base name prepended to every entry path; the
folder download itself carries no such prefix. -/
theorem c2_folder_selected_relation (root : FSNode) (p : List String)
    (es : List (List String × Bytes)) (h : downloadFolder root p = .ok es) :
    downloadSelected root [p] = es.map (fun e => (itemBase p :: e.1, e.2)) := by
  unfold downloadFolder at h
  cases hl : lookupFS p root with
  | none =>
    rw [hl] at h
    cases h
  | some node =>
    cases node with
    | file cnt =>
      rw [hl] at h
      cases h
    | dir ch =>
      rw [hl] at h
      obtain rfl : walkT ch ++ walkS ch = es := by injection h
      rw [downloadSelected_cons, show selEntries root p =
        (walkT ch ++ walkS ch).map (fun pc => (itemBase p :: pc.1, pc.2)) from by
          unfold selEntries; rw [hl]]
      show _ ++ [] = _
      rw [List.append_nil]

/-- C2 witness: the relation at the concrete root. -/
theorem c2_folder_selected_relation_witness :
    downloadSelected rootA [["docs"]] =
      [(["b.txt"], bbB)].map (fun e => (itemBase ["docs"] :: e.1, e.2)) :=
  c2_folder_selected_relation rootA ["docs"] [(["b.txt"], bbB)] (by decide)

/-- C8: the listing endpoint answers 200 for every input; when the
sanitized target resolves to no directory of the modeled root it falls
back to the root listing with the current path reset; when it resolves,
the children are listed with file sizes equal to their byte length and
folder sizes equal to the structural recursive sum. -/
theorem c8_listing_fallback_and_sizes (rootCh : FSEntries) (raw : List Char)
    (ch : FSEntries) :
    (resolveDir rootCh (sanitizeSubpath raw) = none →
      listFilesJson rootCh raw = ⟨200, [], itemsOf [] rootCh⟩ ∧
      listFilesJson rootCh raw = listFilesJson rootCh []) ∧
    (resolveDir rootCh (sanitizeSubpath raw) = some ch →
      (listFilesJson rootCh raw).currentPath = sanitizeSubpath raw ∧
      (listFilesJson rootCh raw).items = itemsSpec (sanitizeSubpath raw) ch) ∧
    (listFilesJson rootCh raw).status = 200 := by
  refine ⟨fun hn => ?_, fun hsm => ?_, ?_⟩
  · unfold listFilesJson
    rw [hn]
    exact ⟨rfl, rfl⟩
  · unfold listFilesJson
    rw [hsm]
    exact ⟨rfl, itemsOf_eq_spec _ ch⟩
  · unfold listFilesJson
    cases hr : resolveDir rootCh (sanitizeSubpath raw) with
    | none => rfl
    | some ch2 => rfl

/-- C8 witness: a bad path falls back to the root, and the Scenario A
root lists a.txt as a 3-byte file and docs as a 5-byte folder. -/
theorem c8_listing_fallback_and_sizes_witness :
    listFilesJson rootAE "no-such".data = ⟨200, [], itemsOf [] rootAE⟩ ∧
    (listFilesJson rootAE "docs".data).items =
      itemsSpec (sanitizeSubpath "docs".data) (.cons "b.txt" (.file bbB) .nil) ∧
    itemsSpec [] rootAE =
      [⟨"a.txt", "a.txt".data, 3, "file"⟩, ⟨"docs", "docs".data, 5, "folder"⟩] := by
  have h1 := (c8_listing_fallback_and_sizes rootAE "no-such".data .nil).1 (by decide)
  have h2 := (c8_listing_fallback_and_sizes rootAE "docs".data
    (.cons "b.txt" (.file bbB) .nil)).2.1 (by decide)
  exact ⟨h1.1, h2.2, by decide⟩

/-- C1: the code violates the path-confinement contract. The path
download_file operates on for ../../etc/passwd lexically escapes the
download root, the handler serves the file found there instead of
failing, and the api-files sanitizer turns ..//..//etc into the absolute
path ////etc which the join returns unchanged, again escaping the root. -/
theorem c1_traversal_escape :
    isDescendant (normalizePath downloadDirC)
        (normalizePath (downloadFileTarget "../../etc/passwd".data)) = false ∧
    downloadFile fsOutside "../../etc/passwd".data = .ok secretB ∧
    sanitizeSubpath "..//..//etc".data = "////etc".data ∧
    isDescendant (normalizePath downloadDirC)
        (normalizePath (osJoin downloadDirC (sanitizeSubpath "..//..//etc".data))) = false :=
  ⟨by decide, by decide, by decide, by decide⟩

/-- C4: a declared Content-Length beyond the cap is answered 413 with no
body bytes read and nothing stored, whatever the request carries. -/
theorem c4_oversize_rejected_before_read (cl : Nat) (ct : Option Bytes) (body ts : Bytes)
    (h : 500000000 < cl) :
    handleFileUpload cl ct body ts = ⟨413, false, []⟩ := by
  unfold handleFileUpload
  rw [if_pos (show uploadCap < cl from h)]

/-- C4 witness: the boundary value 500000001. -/
theorem c4_oversize_rejected_before_read_witness :
    handleFileUpload 500000001 (some ct5) (strB "x") ts0 = ⟨413, false, []⟩ :=
  c4_oversize_rejected_before_read 500000001 (some ct5) (strB "x") ts0 (by norm_num)

/-- C3 counterexample: a POST whose Content-Type carries no boundary
parameter is not answered 500; the handler adopts the whole Content-Type
value as the boundary token, treats the body as one part and returns 200
after storing a file from it. -/
theorem c3_missing_boundary_not_500 :
    boundaryOf ct3 = ct3 ∧
    (handleFileUpload body3.length (some ct3) body3 ts0).status = 200 ∧
    (handleFileUpload body3.length (some ct3) body3 ts0).stored ≠ [] :=
  ⟨by decide, by decide, by decide⟩

/-- C3 amended: the request-level 500 before any body read arises when
the Content-Type header is absent altogether (None.split raises); a
malformed part - one without the Content-Disposition and filename
markers - is skipped without affecting the rest of the request. -/
theorem c3_missing_ct_500_and_part_skip :
    (∀ (cl : Nat) (body ts : Bytes), cl ≤ uploadCap →
      handleFileUpload cl none body ts = ⟨500, false, []⟩) ∧
    (∀ (ts : Bytes) (pre post : List Bytes) (bad : Bytes), condPart bad = false →
      processParts ts (pre ++ bad :: post) = processParts ts (pre ++ post)) := by
  constructor
  · intro cl body ts h
    unfold handleFileUpload
    rw [if_neg (by omega)]
  · intro ts pre post bad h
    exact processParts_skip ts pre post bad h

/-- C3 amended witness: a missing Content-Type at length zero, and an
empty malformed part skipped between two parts. -/
theorem c3_missing_ct_500_and_part_skip_witness :
    handleFileUpload 0 none [] ts0 = ⟨500, false, []⟩ ∧
    processParts ts0 ([body3] ++ [] :: [endB]) = processParts ts0 ([body3] ++ [endB]) :=
  ⟨c3_missing_ct_500_and_part_skip.1 0 [] ts0 (by norm_num),
    c3_missing_ct_500_and_part_skip.2 ts0 [body3] [endB] [] (by decide)⟩

/-- C7 counterexample: a part whose header section carries no filename
attribute but whose form-field value contains the text filename= is
persisted as a file, refuting the only-if direction of the claim. -/
theorem c7_form_field_counterexample :
    hasFilenameAttr (partOf hdr7 pay7) = false ∧
    bContains cdTok (partOf hdr7 pay7) = true ∧
    (handleFileUpload body7.length (some ct5) body7 ts0).stored ≠ [] :=
  ⟨by decide, by decide, by decide⟩

/-- C7 amended: a split-off part is persisted exactly when its raw bytes
contain both the Content-Disposition and the filename= byte sequences,
anywhere in the part; for a well-formed file part the persisted payload
is exactly the bytes between the first blank line and the trailing line
terminator, that is the framed payload P. -/
theorem c7_part_persistence_condition (ts : Bytes) (parts : List Bytes) (nm c : Bytes)
    (hdr P : Bytes) (kcd kfn kf j : Nat)
    (hcd : bfind? cdTok (preOf hdr) = some kcd)
    (hfn : bfind? fnTok (preOf hdr) = some kfn)
    (hfq : bfind? fnqTok (preOf hdr) = some kf)
    (hq : bfind? quoteB ((preOf hdr).drop (kf + 10)) = some j)
    (hs : bfind? crlf2B (preOf hdr) = some ((preOf hdr).length - 4)) :
    ((nm, c) ∈ processParts ts parts ↔
      ∃ p, p ∈ parts ∧ condPart p = true ∧ nm = storedNameOf ts p ∧ c = partData p) ∧
    condPart (partOf hdr P) = true ∧
    partData (partOf hdr P) = P := by
  obtain ⟨h1, _, h3⟩ := filePart_eval hdr P kcd kfn kf j hcd hfn hfq hq hs
  exact ⟨processParts_mem ts parts nm c, h1, h3⟩

/-- C7 witness: the persistence characterization at the x.txt part. -/
theorem c7_part_persistence_condition_witness :
    ((ts0 ++ [95] ++ strB "x.txt", strB "hi") ∈ processParts ts0 [partOf hdr3 (strB "hi")] ↔
      ∃ p, p ∈ [partOf hdr3 (strB "hi")] ∧ condPart p = true ∧
        ts0 ++ [95] ++ strB "x.txt" = storedNameOf ts0 p ∧ strB "hi" = partData p) ∧
    condPart (partOf hdr3 (strB "hi")) = true ∧
    partData (partOf hdr3 (strB "hi")) = strB "hi" :=
  c7_part_persistence_condition ts0 [partOf hdr3 (strB "hi")]
    (ts0 ++ [95] ++ strB "x.txt") (strB "hi") hdr3 (strB "hi") 2 47 47 5
    (by decide) (by decide) (by decide) (by decide) (by decide)

/-- C9: both request entry points increment the connection counter by
exactly one, before and independently of dispatch, for every request;
in particular a GET for a missing download returns 404 with the counter
still incremented once. -/
theorem c9_counter_increment_once :
    (∀ (fs : Bool × List String → Option Bytes) (count : Nat) (p : List Char),
      (doGET fs count p).1 = count + 1) ∧
    (∀ (count : Nat) (p : List Char), (doPOST count p).1 = count + 1) ∧
    (∀ count : Nat, doGET (fun _ => none) count "/download/missing.txt".data =
      (count + 1, .errorResp 404)) := by
  refine ⟨fun fs count p => rfl, fun count p => rfl, fun count => ?_⟩
  have h0 : (doGET (fun _ => none) 0 "/download/missing.txt".data).2 =
      GetResp.errorResp 404 := by decide
  have h2 : (doGET (fun _ => none) count "/download/missing.txt".data).2 =
      GetResp.errorResp 404 := h0
  exact congrArg (Prod.mk (count + 1)) h2

/-- C10: any upload request within the cap and carrying a Content-Type
is answered 200, and when no part passes the recognition test nothing at
all is stored - success does not entail a stored file. -/
theorem c10_upload_success_without_files (cl : Nat) (ct body ts : Bytes)
    (hcap : cl ≤ uploadCap) :
    (handleFileUpload cl (some ct) body ts).status = 200 ∧
    ((∀ p ∈ bsplit (dashdashB ++ boundaryOf ct) (body.take cl), condPart p = false) →
      (handleFileUpload cl (some ct) body ts).stored = []) := by
  rw [handleFileUpload_some cl ct body ts (by omega)]
  exact ⟨rfl, fun h => processParts_nil_of ts _ h⟩

/-- C10 witness: a pure form-field upload stores nothing yet returns
200. -/
theorem c10_upload_success_without_files_witness :
    (handleFileUpload body10.length (some ct5) body10 ts0).status = 200 ∧
    (handleFileUpload body10.length (some ct5) body10 ts0).stored = [] := by
  have h := c10_upload_success_without_files body10.length ct5 body10 ts0 (by decide)
  exact ⟨h.1, h.2 (by decide)⟩

end NetToss
